import Mathlib

/-
Verification of the grid patrol simulator and obstruction-loop counter
(src/day06.rs) against its design specification.

Modelling conventions:
- usize is modelled as Nat; the isize conversion in next_guard_index is
  modelled over Int.  The conversion of guard.index into isize can only
  panic for indices at least 2^63, far beyond any grid the parser can
  construct, so it is modelled as total.
- Rust panics (out-of-range matrix indexing, unwrap of a parse failure,
  division by zero) are modelled as the none case of Option.
- The nalgebra DMatrix stores its cells column-major and carries its own
  dimensions; Area keeps nrows, ncols and the column-major cell list.
- HashSet of usize is modelled as a duplicate-free list in insertion
  order; only membership and length are ever consumed.
- The unbounded Rust patrol loop is modelled with an explicit fuel
  parameter; fuel exhaustion and panic both yield none, and every claim
  about a terminating patrol hypothesises a some result.
- Byte indices returned by str::find coincide with character indices
  because every recognised input character is ASCII.
-/

namespace Day06

/-- Cell state of the patrol grid, as in enum Position of day06.rs. -/
inductive Position where
  | Clear : Position
  | Obstructed : Position
deriving DecidableEq, Repr

/-- Cardinal facing of the guard, as in enum Direction of day06.rs. -/
inductive Direction where
  | N : Direction
  | E : Direction
  | S : Direction
  | W : Direction
deriving DecidableEq, Repr

/-- Direction::turn_right of day06.rs. -/
def Direction.turn_right : Direction → Direction
  | .N => .E
  | .E => .S
  | .S => .W
  | .W => .N

/-- One simulation step outcome, as in enum Action of day06.rs. -/
inductive Action where
  | Advance : Nat → Action
  | Rotate : Action
  | Leave : Action
deriving DecidableEq, Repr

/-- Action::is_leave of day06.rs. -/
def Action.is_leave : Action → Bool
  | .Leave => true
  | _ => false

/-- The guard state: linear index into the grid plus a facing. -/
structure Guard where
  index : Nat
  direction : Direction
deriving DecidableEq, Repr

/-- Guard::is_guard_char of day06.rs. -/
def Guard.is_guard_char (c : Char) : Bool :=
  c == '^' || c == '>' || c == 'V' || c == '<'

/-- The composite simulation state: grid plus guard.  The map field is the
column-major cell buffer of the nalgebra DMatrix; nrows and ncols are the
dimensions the matrix carries. -/
structure Area where
  nrows : Nat
  ncols : Nat
  map : List Position
  guard : Guard
deriving DecidableEq, Repr

/-- The sentinel departed value usize::MAX assigned on Leave. -/
def usizeMax : Nat := 2 ^ 64 - 1

/-- Area::guard_will_leave of day06.rs.  Note the source tests the column
of the guard with ncols as divisor even though the column-major stride is
nrows; the two agree only on square grids. -/
def Area.guard_will_leave (a : Area) : Bool :=
  let ncols := a.ncols
  let nrows := a.nrows
  let index := a.guard.index
  match a.guard.direction with
  | .N => index % nrows == 0
  | .E => index / ncols == ncols - 1
  | .S => index % nrows == nrows - 1
  | .W => index / ncols == 0

/-- Area::next_guard_index of day06.rs: signed offset arithmetic on the
column-major linear index, with usize::try_from failing exactly on a
negative result. -/
def Area.next_guard_index (a : Area) : Option Nat :=
  if a.guard_will_leave then none
  else
    let index : Int := a.guard.index
    let offset : Int :=
      match a.guard.direction with
      | .N => -1
      | .E => (a.nrows : Int)
      | .S => 1
      | .W => -(a.nrows : Int)
    if 0 ≤ index + offset then some (index + offset).toNat else none

/-- Area::next_guard_action of day06.rs.  The none case models the panic
of indexing the matrix with an out-of-range linear index. -/
def Area.next_guard_action (a : Area) : Option Action :=
  match a.next_guard_index with
  | none => some .Leave
  | some index =>
    match a.map.get? index with
    | none => none
    | some .Clear => some (.Advance index)
    | some .Obstructed => some .Rotate

/-- Area::run_action of day06.rs. -/
def Area.run_action (a : Area) (action : Action) : Area :=
  match action with
  | .Advance index => { a with guard := { a.guard with index := index } }
  | .Rotate =>
      { a with guard := { a.guard with direction := a.guard.direction.turn_right } }
  | .Leave => { a with guard := { a.guard with index := usizeMax } }

/-- Area::next_state of day06.rs: compute the next action and apply it,
returning the action.  The none case propagates a panic. -/
def Area.next_state (a : Area) : Option (Action × Area) :=
  match a.next_guard_action with
  | none => none
  | some action => some (action, a.run_action action)

/-- Position::try_from for char of day06.rs. -/
def positionFromChar : Char → Option Position
  | '#' => some .Obstructed
  | '.' => some .Clear
  | '^' => some .Clear
  | '>' => some .Clear
  | 'V' => some .Clear
  | '<' => some .Clear
  | _ => none

/-- Direction::try_from for char of day06.rs. -/
def directionFromChar : Char → Option Direction
  | '^' => some .N
  | '>' => some .E
  | 'V' => some .S
  | '<' => some .W
  | _ => none

/-- The cell buffer DMatrix::from_row_iterator builds: it consumes the
row-major cell sequence and stores it column-major, so the column-major
cell at index i (row i % nrows, column i / nrows) comes from row-major
position row * ncols + column. -/
def buildMap (nrows ncols : Nat) (rowMajor : List Position) : List Position :=
  (List.range (nrows * ncols)).map
    (fun i => rowMajor.getD ((i % nrows) * ncols + i / nrows) .Clear)

/-- Area::from_str of day06.rs.  from_row_iterator consumes exactly
nrows * ncols cells; that never exceeds the number of non-newline
characters because nrows is obtained by dividing that count by ncols.
The two zero-divisor guards model the Rust division-by-zero panics; the
getD default inside buildMap is never reached because the row-major
source position of an in-range column-major index is itself in range. -/
def parseArea (s : String) : Option Area :=
  let cs := s.data
  match cs.findIdx? (· == '\n') with
  | none => none
  | some ncols =>
    if ncols = 0 then none
    else
      let nonNewline := cs.filter (· != '\n')
      let nrows := nonNewline.length / ncols
      if nrows = 0 then none
      else
        match (nonNewline.take (nrows * ncols)).mapM positionFromChar with
        | none => none
        | some rowMajor =>
          match cs.findIdx? Guard.is_guard_char with
          | none => none
          | some raw_index =>
            let row_index := raw_index - raw_index / nrows + 1
            let index := (row_index % ncols) * nrows + row_index / nrows
            match (cs.get? raw_index).bind directionFromChar with
            | none => none
            | some direction =>
              some { nrows := nrows, ncols := ncols,
                     map := buildMap nrows ncols rowMajor,
                     guard := { index := index, direction := direction } }

/-- HashSet::insert on the insertion-order list model of the visited set:
inserting an element already present leaves the set unchanged. -/
def hsInsert (s : List Nat) (x : Nat) : List Nat :=
  if x ∈ s then s else s ++ [x]

/-- The patrol loop shared by both entry points of day06.rs: record the
guard position, step, stop once the step action is Leave.  The fuel
parameter bounds the number of iterations of the unbounded Rust loop;
none covers both fuel exhaustion and a panic inside a step. -/
def runPatrol : Nat → Area → List Nat → Option (List Nat)
  | 0, _, _ => none
  | fuel + 1, a, seen =>
    let seen := hsInsert seen a.guard.index
    match a.next_state with
    | none => none
    | some (action, a') =>
      if action.is_leave then some seen else runPatrol fuel a' seen

/-- count_distinct_patrol_positions of day06.rs, with explicit patrol
fuel. -/
def count_distinct_patrol_positions (fuel : Nat) (input : String) : Option Nat :=
  match parseArea input with
  | none => none
  | some area => (runPatrol fuel area []).map List.length

/-- The compiled-in step budget FUEL of count_possible_loops. -/
def FUEL : Nat := 6000

/-- Placing the synthetic obstruction: area.map[i] = Position::Obstructed.
List.set leaves the list unchanged out of range, so callers guard the
range explicitly to model the Rust indexing panic. -/
def obstruct (a : Area) (i : Nat) : Area :=
  { a with map := a.map.set i .Obstructed }

/-- The per-candidate trial loop of count_possible_loops: run at most fuel
steps, reporting some true when a step action is Leave (not_a_loop) and
some false when the budget is exhausted first; none models a panic. -/
def trialNotALoop : Nat → Area → Option Bool
  | 0, _ => some false
  | fuel + 1, a =>
    match a.next_state with
    | none => none
    | some (action, a') =>
      if action.is_leave then some true else trialNotALoop fuel a'

/-- The classification a trial contributes: the negation of not_a_loop. -/
def trialIsLoop (fuel : Nat) (a : Area) : Option Bool :=
  (trialNotALoop fuel a).map (fun b => !b)

/-- The parallel fan-out of count_possible_loops over the candidate list:
one boolean per candidate, none as soon as any trial panics (the range
guard models the indexing panic of placing the obstruction).  The
evaluation order never matters because only the count of true results is
consumed. -/
def runTrials (area : Area) : List Nat → Option (List Bool)
  | [] => some []
  | p :: ps =>
    if p < area.map.length then
      match trialIsLoop FUEL (obstruct area p), runTrials area ps with
      | some b, some bs => some (b :: bs)
      | _, _ => none
    else none

/-- One loop-search trial as count_possible_loops runs it on candidate p:
none when placing the obstruction would panic, otherwise the bounded
trial classification. -/
def trialG (a : Area) (p : Nat) : Option Bool :=
  if p < a.map.length then trialIsLoop FUEL (obstruct a p) else none

/-- The reduction stage of count_possible_loops: filter the per-candidate
booleans and count. -/
def countLoopTrials (area : Area) (ps : List Nat) : Option Nat :=
  (runTrials area ps).map (fun rs => (rs.filter (fun x => x)).length)

/-- count_possible_loops of day06.rs, with explicit patrol fuel for the
initial unobstructed patrol that builds the candidate set. -/
def count_possible_loops (fuel : Nat) (input : String) : Option Nat :=
  match parseArea input with
  | none => none
  | some area =>
    match runPatrol fuel area [] with
    | none => none
    | some positions => countLoopTrials area positions

/-- The state of the simulation after k successful steps from a; none once
a step has panicked. -/
def Area.traj (a : Area) : Nat → Option Area
  | 0 => some a
  | k + 1 => (a.traj k).bind (fun b => b.next_state.map Prod.snd)

/-- The action the guard state machine produces at step k of the run
starting from a. -/
def Area.actionAt (a : Area) (k : Nat) : Option Action :=
  (a.traj k).bind Area.next_guard_action

/-- Specification-side loop criterion: running the guard state machine for
at most fuel steps never produces the Leave action. -/
def noLeaveWithin (fuel : Nat) (a : Area) : Prop :=
  ∀ k < fuel, a.actionAt k ≠ some .Leave

instance (fuel : Nat) (a : Area) : Decidable (noLeaveWithin fuel a) :=
  Nat.decidableBallLT fuel _

/-- Specification-side boundary rule of the grid model: with column-major
stride nrows, the cell at linear index i has row i % nrows and column
i / nrows, and a one-step move has no valid destination exactly when it
would cross the corresponding edge of the grid. -/
def specNoNeighbor (nrows ncols i : Nat) (d : Direction) : Prop :=
  match d with
  | .N => i % nrows = 0
  | .S => i % nrows = nrows - 1
  | .E => i / nrows = ncols - 1
  | .W => i / nrows = 0

instance (nrows ncols i : Nat) (d : Direction) :
    Decidable (specNoNeighbor nrows ncols i d) := by
  unfold specNoNeighbor
  match d with
  | .N => exact inferInstance
  | .E => exact inferInstance
  | .S => exact inferInstance
  | .W => exact inferInstance

/-- Well-formedness of a square simulation state: the cell buffer matches
the dimensions, the guard index is in range, and the grid is square and
nonempty. -/
def Area.Wf (a : Area) : Prop :=
  a.map.length = a.nrows * a.ncols ∧
  a.guard.index < a.nrows * a.ncols ∧
  a.nrows = a.ncols ∧
  0 < a.nrows

instance (a : Area) : Decidable a.Wf := by
  unfold Area.Wf
  exact inferInstance

/-- The number of next_state calls the trial loop performs. -/
def trialStepCount : Nat → Area → Nat
  | 0, _ => 0
  | fuel + 1, a =>
    match a.next_state with
    | none => 1
    | some (action, a') =>
      if action.is_leave then 1 else 1 + trialStepCount fuel a'

/-- The standard AoC Day 6 sample board: 10 by 10, guard facing up at row
6 column 4. -/
def EXAMPLE : String :=
  "....#.....\n.........#\n..........\n..#.......\n.......#..\n..........\n.#..^.....\n........#.\n#.........\n......#..."

/-- A 2 by 2 all-clear board used to instantiate hypotheses concretely. -/
def smallInput : String := ".^\n.."

/-- The area smallInput parses to. -/
def smallArea : Area :=
  { nrows := 2, ncols := 2,
    map := [.Clear, .Clear, .Clear, .Clear],
    guard := { index := 1, direction := .N } }

/-- A board whose guard marker sits at row 0, column 0 (column-major
linear index 0). -/
def cornerInput : String := "^.\n.."

/-- The Area the sample board parses to: the column-major cell buffer of
the 10 by 10 grid, with the guard at column-major index 46 (row 6,
column 4) facing north. -/
def exampleArea : Area :=
  { nrows := 10, ncols := 10,
    map := [
      Position.Clear, Position.Clear, Position.Clear, Position.Clear, Position.Clear, Position.Clear, Position.Clear, Position.Clear, Position.Obstructed, Position.Clear,
      Position.Clear, Position.Clear, Position.Clear, Position.Clear, Position.Clear, Position.Clear, Position.Obstructed, Position.Clear, Position.Clear, Position.Clear,
      Position.Clear, Position.Clear, Position.Clear, Position.Obstructed, Position.Clear, Position.Clear, Position.Clear, Position.Clear, Position.Clear, Position.Clear,
      Position.Clear, Position.Clear, Position.Clear, Position.Clear, Position.Clear, Position.Clear, Position.Clear, Position.Clear, Position.Clear, Position.Clear,
      Position.Obstructed, Position.Clear, Position.Clear, Position.Clear, Position.Clear, Position.Clear, Position.Clear, Position.Clear, Position.Clear, Position.Clear,
      Position.Clear, Position.Clear, Position.Clear, Position.Clear, Position.Clear, Position.Clear, Position.Clear, Position.Clear, Position.Clear, Position.Clear,
      Position.Clear, Position.Clear, Position.Clear, Position.Clear, Position.Clear, Position.Clear, Position.Clear, Position.Clear, Position.Clear, Position.Obstructed,
      Position.Clear, Position.Clear, Position.Clear, Position.Clear, Position.Obstructed, Position.Clear, Position.Clear, Position.Clear, Position.Clear, Position.Clear,
      Position.Clear, Position.Clear, Position.Clear, Position.Clear, Position.Clear, Position.Clear, Position.Clear, Position.Obstructed, Position.Clear, Position.Clear,
      Position.Clear, Position.Obstructed, Position.Clear, Position.Clear, Position.Clear, Position.Clear, Position.Clear, Position.Clear, Position.Clear, Position.Clear],
    guard := { index := 46, direction := .N } }

/-- The visited positions of the unobstructed patrol over the sample
board, in insertion order. -/
def exampleVisited : List Nat :=
  [46, 45, 44, 43, 42, 41, 51, 61, 71, 81, 82, 83, 84, 85, 86, 76, 66, 56, 36, 26, 25, 24, 34, 54, 64, 65, 67, 68, 58, 48, 38, 28, 18, 17, 27, 37, 47, 57, 77, 78, 79]

/-- The six candidate positions whose trials exhaust the budget on the
sample board. -/
def loopPositions : List Nat := [36, 67, 38, 18, 77, 79]

/-- The sample-board trial state with an obstruction at p and the guard
moved to the given index and facing: the states a looping trial revisits. -/
def areaAt (p index : Nat) (d : Direction) : Area :=
  { obstruct exampleArea p with guard := { index := index, direction := d } }

/-- A non-square area: 3 rows, 2 columns, all clear, guard in the east
column facing east. -/
def areaNonSquare : Area :=
  { nrows := 3, ncols := 2,
    map := [.Clear, .Clear, .Clear, .Clear, .Clear, .Clear],
    guard := { index := 4, direction := .E } }

/-! Basic lemmas about single steps and traces. -/

theorem Action.is_leave_iff (act : Action) : act.is_leave = true ↔ act = .Leave := by
  cases act <;> simp [Action.is_leave]

theorem Area.run_action_map (a : Area) (act : Action) :
    (a.run_action act).map = a.map ∧ (a.run_action act).nrows = a.nrows ∧
      (a.run_action act).ncols = a.ncols := by
  cases act <;> simp [Area.run_action]

theorem Area.next_state_eq_none_iff (a : Area) :
    a.next_state = none ↔ a.next_guard_action = none := by
  unfold Area.next_state
  cases a.next_guard_action <;> simp

theorem Area.next_state_eq_some_iff (a : Area) (act : Action) (a' : Area) :
    a.next_state = some (act, a') ↔
      a.next_guard_action = some act ∧ a' = a.run_action act := by
  unfold Area.next_state
  cases h : a.next_guard_action with
  | none => simp
  | some b =>
    simp only [Option.some.injEq, Prod.mk.injEq]
    constructor
    · rintro ⟨rfl, h2⟩
      exact ⟨rfl, h2.symm⟩
    · rintro ⟨rfl, rfl⟩
      exact ⟨rfl, rfl⟩

theorem Area.traj_zero (a : Area) : a.traj 0 = some a := rfl

theorem Area.traj_succ (a : Area) (k : Nat) :
    a.traj (k + 1) = (a.traj k).bind (fun b => b.next_state.map Prod.snd) := rfl

theorem Area.traj_succ_of_step {a a' : Area} {act : Action}
    (h : a.next_state = some (act, a')) (k : Nat) :
    a.traj (k + 1) = a'.traj k := by
  induction k with
  | zero => simp [Area.traj_succ, Area.traj_zero, h]
  | succ k ih => rw [Area.traj_succ, ih, ← Area.traj_succ]

theorem Area.traj_succ_of_none {a : Area} (h : a.next_state = none) (k : Nat) :
    a.traj (k + 1) = none := by
  induction k with
  | zero => simp [Area.traj_succ, Area.traj_zero, h]
  | succ k ih => rw [Area.traj_succ, ih]; rfl

theorem Area.traj_add (a : Area) (m t : Nat) :
    a.traj (m + t) = (a.traj m).bind (fun b => b.traj t) := by
  induction t with
  | zero => cases h : a.traj m <;> simp [Area.traj_zero, h]
  | succ t ih =>
    rw [← Nat.add_assoc, Area.traj_succ, ih]
    cases h : a.traj m with
    | none => simp
    | some b => simp [Area.traj_succ]

theorem Area.actionAt_zero (a : Area) : a.actionAt 0 = a.next_guard_action := by
  simp [Area.actionAt, Area.traj_zero]

theorem Area.actionAt_succ_of_step {a a' : Area} {act : Action}
    (h : a.next_state = some (act, a')) (k : Nat) :
    a.actionAt (k + 1) = a'.actionAt k := by
  simp [Area.actionAt, Area.traj_succ_of_step h]

theorem Area.actionAt_succ_of_none {a : Area} (h : a.next_state = none) (k : Nat) :
    a.actionAt (k + 1) = none := by
  simp [Area.actionAt, Area.traj_succ_of_none h]

/-! Characterisation of the bounded trial loop in terms of the action
trace: the loop reports not_a_loop exactly when some action within the
budget is Leave, and reports a loop exactly when every action within the
budget exists and is not Leave. -/

theorem trialNotALoop_succ_of_none {a : Area} (n : Nat) (h : a.next_state = none) :
    trialNotALoop (n + 1) a = none := by
  conv_lhs => rw [trialNotALoop, h]

theorem trialNotALoop_succ_of_step {a a' : Area} {act : Action} (n : Nat)
    (h : a.next_state = some (act, a')) :
    trialNotALoop (n + 1) a =
      if act.is_leave then some true else trialNotALoop n a' := by
  conv_lhs => rw [trialNotALoop, h]

theorem trialNotALoop_eq_true_iff (fuel : Nat) (a : Area) :
    trialNotALoop fuel a = some true ↔ ∃ k < fuel, a.actionAt k = some .Leave := by
  induction fuel generalizing a with
  | zero => simp [trialNotALoop]
  | succ n ih =>
    cases h : a.next_state with
    | none =>
      rw [trialNotALoop_succ_of_none n h]
      refine iff_of_false (by simp) ?_
      rintro ⟨k, hk, hact⟩
      cases k with
      | zero =>
        rw [Area.actionAt_zero, (Area.next_state_eq_none_iff a).mp h] at hact
        exact Option.noConfusion hact
      | succ k =>
        rw [Area.actionAt_succ_of_none h] at hact
        exact Option.noConfusion hact
    | some p =>
      obtain ⟨act, a'⟩ := p
      obtain ⟨hact, rfl⟩ := (Area.next_state_eq_some_iff a act _).mp h
      rw [trialNotALoop_succ_of_step n h]
      by_cases hl : act.is_leave
      · rw [if_pos hl]
        refine iff_of_true rfl ⟨0, Nat.succ_pos n, ?_⟩
        rw [Area.actionAt_zero, hact, (Action.is_leave_iff act).mp hl]
      · rw [if_neg hl, ih]
        constructor
        · rintro ⟨k, hk, hk2⟩
          exact ⟨k + 1, Nat.succ_lt_succ hk,
            by rw [Area.actionAt_succ_of_step h]; exact hk2⟩
        · rintro ⟨k, hk, hk2⟩
          cases k with
          | zero =>
            rw [Area.actionAt_zero, hact] at hk2
            injection hk2 with hk2
            exact absurd ((Action.is_leave_iff act).mpr hk2) hl
          | succ k =>
            rw [Area.actionAt_succ_of_step h] at hk2
            exact ⟨k, Nat.lt_of_succ_lt_succ hk, hk2⟩

theorem trialNotALoop_eq_false_iff (fuel : Nat) (a : Area) :
    trialNotALoop fuel a = some false ↔
      ∀ k < fuel, ∃ act, a.actionAt k = some act ∧ act ≠ .Leave := by
  induction fuel generalizing a with
  | zero => simp [trialNotALoop]
  | succ n ih =>
    cases h : a.next_state with
    | none =>
      rw [trialNotALoop_succ_of_none n h]
      refine iff_of_false (by simp) ?_
      intro hall
      obtain ⟨act, hact, _⟩ := hall 0 (Nat.succ_pos n)
      rw [Area.actionAt_zero, (Area.next_state_eq_none_iff a).mp h] at hact
      exact Option.noConfusion hact
    | some p =>
      obtain ⟨act, a'⟩ := p
      obtain ⟨hact, rfl⟩ := (Area.next_state_eq_some_iff a act _).mp h
      rw [trialNotALoop_succ_of_step n h]
      by_cases hl : act.is_leave
      · rw [if_pos hl]
        refine iff_of_false (by simp) ?_
        intro hall
        obtain ⟨b, hb, hbne⟩ := hall 0 (Nat.succ_pos n)
        rw [Area.actionAt_zero, hact] at hb
        injection hb with hb
        exact hbne (hb ▸ (Action.is_leave_iff act).mp hl)
      · rw [if_neg hl, ih]
        constructor
        · intro hall k hk
          cases k with
          | zero =>
            exact ⟨act, by rw [Area.actionAt_zero, hact],
              fun he => hl ((Action.is_leave_iff act).mpr he)⟩
          | succ k =>
            rw [Area.actionAt_succ_of_step h]
            exact hall k (Nat.lt_of_succ_lt_succ hk)
        · intro hall k hk
          have := hall (k + 1) (Nat.succ_lt_succ hk)
          rwa [Area.actionAt_succ_of_step h] at this

theorem trialIsLoop_eq_true_iff (fuel : Nat) (a : Area) :
    trialIsLoop fuel a = some true ↔ trialNotALoop fuel a = some false := by
  unfold trialIsLoop
  cases h : trialNotALoop fuel a with
  | none => simp
  | some b => cases b <;> simp

theorem trialIsLoop_eq_false_iff (fuel : Nat) (a : Area) :
    trialIsLoop fuel a = some false ↔ trialNotALoop fuel a = some true := by
  unfold trialIsLoop
  cases h : trialNotALoop fuel a with
  | none => simp
  | some b => cases b <;> simp

/-- Escaping is exact: if some action within the budget is Leave, the
trial classifies the configuration as not a loop. -/
theorem trialIsLoop_eq_false_of_leave (fuel : Nat) (a : Area)
    (h : ∃ k < fuel, a.actionAt k = some .Leave) :
    trialIsLoop fuel a = some false :=
  (trialIsLoop_eq_false_iff fuel a).mpr ((trialNotALoop_eq_true_iff fuel a).mpr h)

/-! A state that recurs with no Leave before the recurrence keeps the
simulation inside the cycle forever, so every budget is exhausted. -/

theorem actionAt_ok_forever {a : Area} {i P : Nat} (hP : 0 < P)
    (h : a.traj (i + P) = a.traj i)
    (hok : ∀ k < i + P, ∃ act, a.actionAt k = some act ∧ act ≠ .Leave) :
    ∀ k, ∃ act, a.actionAt k = some act ∧ act ≠ .Leave := by
  intro k
  induction k using Nat.strong_induction_on with
  | _ k ih =>
    by_cases hk : k < i + P
    · exact hok k hk
    · obtain ⟨t, rfl⟩ : ∃ t, k = i + P + t :=
        ⟨k - (i + P), by omega⟩
      have hshift : a.traj (i + P + t) = a.traj (i + t) := by
        rw [Area.traj_add, h, ← Area.traj_add]
      have hrw : a.actionAt (i + P + t) = a.actionAt (i + t) := by
        unfold Area.actionAt
        rw [hshift]
      rw [hrw]
      exact ih (i + t) (by omega)

/-- If the state after i + P steps equals the state after i steps and the
first i + P steps neither leave nor panic, the trial loop exhausts any
budget and classifies the configuration as a loop. -/
theorem trialIsLoop_eq_true_of_cycle (fuel : Nat) (a : Area) (i P : Nat)
    (hP : 0 < P) (h1 : trialNotALoop (i + P) a = some false)
    (h2 : a.traj (i + P) = a.traj i) :
    trialIsLoop fuel a = some true := by
  rw [trialIsLoop_eq_true_iff, trialNotALoop_eq_false_iff]
  intro k _
  exact actionAt_ok_forever hP h2 ((trialNotALoop_eq_false_iff (i + P) a).mp h1) k

/-! The trial loop as a decision procedure for the specification-side
loop criterion, and the fan-out over the candidate list. -/

theorem trialIsLoop_eq_decide (fuel : Nat) (a : Area)
    (hnp : trialNotALoop fuel a ≠ none) :
    trialIsLoop fuel a = some (decide (noLeaveWithin fuel a)) := by
  cases h : trialNotALoop fuel a with
  | none => exact absurd h hnp
  | some b =>
    cases b with
    | false =>
      have hall := (trialNotALoop_eq_false_iff fuel a).mp h
      have hnl : noLeaveWithin fuel a := by
        intro k hk hleave
        obtain ⟨act, hact, hne⟩ := hall k hk
        rw [hact] at hleave
        injection hleave with hleave
        exact hne hleave
      unfold trialIsLoop
      rw [h, decide_eq_true hnl]
      rfl
    | true =>
      obtain ⟨k, hk, hleave⟩ := (trialNotALoop_eq_true_iff fuel a).mp h
      have hnl : ¬ noLeaveWithin fuel a := fun hno => hno k hk hleave
      unfold trialIsLoop
      rw [h, decide_eq_false hnl]
      rfl

theorem runTrials_nil (a : Area) : runTrials a [] = some [] := rfl

theorem runTrials_cons (a : Area) (p : Nat) (ps : List Nat) :
    runTrials a (p :: ps) =
      if p < a.map.length then
        match trialIsLoop FUEL (obstruct a p), runTrials a ps with
        | some b, some bs => some (b :: bs)
        | _, _ => none
      else none := rfl

theorem runTrials_eq_map (a : Area) (ps : List Nat)
    (hok : ∀ p ∈ ps, p < a.map.length ∧ trialNotALoop FUEL (obstruct a p) ≠ none) :
    runTrials a ps =
      some (ps.map (fun p => decide (noLeaveWithin FUEL (obstruct a p)))) := by
  induction ps with
  | nil => rfl
  | cons q ps ih =>
    obtain ⟨hq1, hq2⟩ := hok q (List.mem_cons_self q ps)
    have hq3 := trialIsLoop_eq_decide FUEL (obstruct a q) hq2
    have ih2 := ih (fun p hp => hok p (List.mem_cons_of_mem q hp))
    rw [runTrials_cons, if_pos hq1, hq3, ih2]
    rfl

theorem length_filter_map_id (f : Nat → Bool) (ps : List Nat) :
    ((ps.map f).filter (fun x => x)).length = (ps.filter f).length := by
  induction ps with
  | nil => rfl
  | cons q ps ih =>
    simp only [List.map_cons, List.filter_cons]
    cases hq : f q <;> simp [hq, ih]

theorem countLoopTrials_eq_filter (a : Area) (ps : List Nat)
    (hok : ∀ p ∈ ps, p < a.map.length ∧ trialNotALoop FUEL (obstruct a p) ≠ none) :
    countLoopTrials a ps =
      some ((ps.filter (fun p => decide (noLeaveWithin FUEL (obstruct a p)))).length) := by
  unfold countLoopTrials
  rw [runTrials_eq_map a ps hok]
  simp only [Option.map_some', Option.some.injEq]
  exact length_filter_map_id _ ps

/-! Lemmas about the visited-set model. -/

theorem mem_hsInsert_self (s : List Nat) (x : Nat) : x ∈ hsInsert s x := by
  by_cases h : x ∈ s <;> simp [hsInsert, h]

theorem mem_hsInsert_of_mem {s : List Nat} {y : Nat} (x : Nat) (h : y ∈ s) :
    y ∈ hsInsert s x := by
  by_cases hx : x ∈ s <;> simp [hsInsert, hx, h]

theorem mem_hsInsert {s : List Nat} {x y : Nat} :
    y ∈ hsInsert s x ↔ y ∈ s ∨ y = x := by
  by_cases hx : x ∈ s
  · simp only [hsInsert, if_pos hx]
    constructor
    · exact Or.inl
    · rintro (h | rfl)
      · exact h
      · exact hx
  · simp [hsInsert, hx]

theorem hsInsert_nodup {s : List Nat} (x : Nat) (h : s.Nodup) :
    (hsInsert s x).Nodup := by
  by_cases hx : x ∈ s
  · simpa [hsInsert, hx] using h
  · simp [hsInsert, hx, List.nodup_append, h]

/-! Lemmas about the patrol loop. -/

theorem runPatrol_succ (n : Nat) (a : Area) (seen : List Nat) :
    runPatrol (n + 1) a seen =
      match a.next_state with
      | none => none
      | some (action, a') =>
        if action.is_leave then some (hsInsert seen a.guard.index)
        else runPatrol n a' (hsInsert seen a.guard.index) := rfl

theorem runPatrol_succ_of_none {a : Area} (n : Nat) (seen : List Nat)
    (h : a.next_state = none) : runPatrol (n + 1) a seen = none := by
  rw [runPatrol_succ, h]

theorem runPatrol_succ_of_step {a a' : Area} {act : Action} (n : Nat)
    (seen : List Nat) (h : a.next_state = some (act, a')) :
    runPatrol (n + 1) a seen =
      if act.is_leave then some (hsInsert seen a.guard.index)
      else runPatrol n a' (hsInsert seen a.guard.index) := by
  rw [runPatrol_succ, h]

theorem runPatrol_mem : ∀ (f : Nat) (a : Area) (seen ps : List Nat),
    runPatrol f a seen = some ps →
    (∀ x ∈ seen, x ∈ ps) ∧ a.guard.index ∈ ps := by
  intro f
  induction f with
  | zero => intro a seen ps h; exact absurd h (by simp [runPatrol])
  | succ n ih =>
    intro a seen ps h
    cases hs : a.next_state with
    | none =>
      rw [runPatrol_succ_of_none n seen hs] at h
      exact Option.noConfusion h
    | some p =>
      obtain ⟨act, a'⟩ := p
      rw [runPatrol_succ_of_step n seen hs] at h
      by_cases hl : act.is_leave
      · rw [if_pos hl] at h
        injection h with h
        subst h
        exact ⟨fun x hx => mem_hsInsert_of_mem _ hx, mem_hsInsert_self _ _⟩
      · rw [if_neg hl] at h
        obtain ⟨hsub, -⟩ := ih a' (hsInsert seen a.guard.index) ps h
        exact ⟨fun x hx => hsub x (mem_hsInsert_of_mem _ hx),
          hsub _ (mem_hsInsert_self _ _)⟩

/-! Frame and range facts about a single step. -/

theorem next_guard_action_of_index_none {a : Area}
    (h : a.next_guard_index = none) : a.next_guard_action = some .Leave := by
  unfold Area.next_guard_action
  rw [h]

theorem next_guard_action_of_index_some {a : Area} {i : Nat}
    (h : a.next_guard_index = some i) :
    a.next_guard_action =
      match a.map.get? i with
      | none => none
      | some .Clear => some (.Advance i)
      | some .Obstructed => some .Rotate := by
  unfold Area.next_guard_action
  rw [h]

theorem next_action_cases {a : Area} {act : Action}
    (h : a.next_guard_action = some act) :
    act = .Leave ∨ act = .Rotate ∨ ∃ i, act = .Advance i ∧ i < a.map.length := by
  cases hi : a.next_guard_index with
  | none =>
    rw [next_guard_action_of_index_none hi] at h
    injection h with h
    exact Or.inl h.symm
  | some i =>
    rw [next_guard_action_of_index_some hi] at h
    cases pos : a.map.get? i with
    | none =>
      rw [pos] at h
      exact Option.noConfusion h
    | some cell =>
      cases cell with
      | Clear =>
        rw [pos] at h
        injection h with h
        obtain ⟨hlt, -⟩ := List.get?_eq_some.mp pos
        exact Or.inr (Or.inr ⟨i, h.symm, hlt⟩)
      | Obstructed =>
        rw [pos] at h
        injection h with h
        exact Or.inr (Or.inl h.symm)

theorem step_frame {a a' : Area} {act : Action}
    (h : a.next_state = some (act, a')) :
    a'.map = a.map ∧ a'.nrows = a.nrows ∧ a'.ncols = a.ncols := by
  obtain ⟨-, rfl⟩ := (Area.next_state_eq_some_iff a act a').mp h
  exact Area.run_action_map a act

theorem step_index_lt {a a' : Area} {act : Action}
    (h : a.next_state = some (act, a')) (hl : act.is_leave = false)
    (hidx : a.guard.index < a.map.length) :
    a'.guard.index < a'.map.length := by
  obtain ⟨hact, rfl⟩ := (Area.next_state_eq_some_iff a act _).mp h
  rw [(Area.run_action_map a act).1]
  rcases next_action_cases hact with h1 | h1 | ⟨i, rfl, hi⟩
  · rw [h1] at hl
    simp [Action.is_leave] at hl
  · rw [h1]
    simpa [Area.run_action] using hidx
  · simpa [Area.run_action] using hi

theorem runPatrol_bound : ∀ (f : Nat) (a : Area) (seen ps : List Nat),
    a.guard.index < a.map.length → (∀ x ∈ seen, x < a.map.length) →
    seen.Nodup → runPatrol f a seen = some ps →
    ps.Nodup ∧ ∀ x ∈ ps, x < a.map.length := by
  intro f
  induction f with
  | zero => intro a seen ps _ _ _ h; exact absurd h (by simp [runPatrol])
  | succ n ih =>
    intro a seen ps hidx hseen hnd h
    cases hs : a.next_state with
    | none =>
      rw [runPatrol_succ_of_none n seen hs] at h
      exact Option.noConfusion h
    | some p =>
      obtain ⟨act, a'⟩ := p
      rw [runPatrol_succ_of_step n seen hs] at h
      have hseen' : ∀ x ∈ hsInsert seen a.guard.index, x < a.map.length := by
        intro x hx
        rcases mem_hsInsert.mp hx with hx | rfl
        · exact hseen x hx
        · exact hidx
      have hnd' := hsInsert_nodup a.guard.index hnd
      by_cases hl : act.is_leave
      · rw [if_pos hl] at h
        injection h with h
        subst h
        exact ⟨hnd', hseen'⟩
      · rw [if_neg hl] at h
        have hl' : act.is_leave = false := by
          revert hl
          cases act.is_leave <;> simp
        have hfr := step_frame hs
        have hres := ih a' (hsInsert seen a.guard.index) ps
          (step_index_lt hs hl' hidx)
          (by rw [hfr.1]; exact hseen') hnd' h
        rw [hfr.1] at hres
        exact hres

theorem nodup_bound_length {ps : List Nat} {L : Nat} (hnd : ps.Nodup)
    (hb : ∀ x ∈ ps, x < L) : ps.length ≤ L := by
  have h1 : ps.toFinset.card = ps.length := List.toFinset_card_of_nodup hnd
  have h2 : ps.toFinset ⊆ Finset.range L := fun x hx =>
    Finset.mem_range.mpr (hb x (List.mem_toFinset.mp hx))
  have h3 := Finset.card_le_card h2
  rw [h1, Finset.card_range] at h3
  exact h3

/-! Shape facts about parsing. -/

theorem buildMap_length (nrows ncols : Nat) (rowMajor : List Position) :
    (buildMap nrows ncols rowMajor).length = nrows * ncols := by
  simp [buildMap]

theorem parseArea_shape {s : String} {a : Area} (h : parseArea s = some a) :
    a.map.length = a.nrows * a.ncols := by
  unfold parseArea at h
  dsimp only at h
  repeat' split at h
  all_goals first
    | exact Option.noConfusion h
    | (injection h with h; subst h; exact buildMap_length _ _ _)

/-! The boundary rule on square grids. -/

theorem next_guard_index_square {a : Area} {n : Nat} (hr : a.nrows = n)
    (hc : a.ncols = n) (hn : 0 < n) (hi : a.guard.index < n * n) :
    (a.next_guard_index = none ↔
      specNoNeighbor n n a.guard.index a.guard.direction) ∧
    (∀ j, a.next_guard_index = some j → j < n * n) := by
  obtain ⟨nr, nc, mp, i, d⟩ := a
  dsimp only at hr hc hi ⊢
  subst hr
  subst hc
  have hdm := Nat.div_add_mod i nc
  have hmlt : i % nc < nc := Nat.mod_lt i hn
  have hqlt : i / nc < nc := (Nat.div_lt_iff_lt_mul hn).mpr hi
  have hsq : (nc - 1) * nc + nc = nc * nc := by
    obtain ⟨m, rfl⟩ : ∃ m, nc = m + 1 := ⟨nc - 1, by omega⟩
    simp
    ring
  cases d
  case N =>
    constructor
    · by_cases h0 : i % nc = 0
      · simp [Area.next_guard_index, Area.guard_will_leave, specNoNeighbor, h0]
      · have hge : (0 : Int) ≤ (i : Int) + -1 := by omega
        simp [Area.next_guard_index, Area.guard_will_leave, specNoNeighbor, h0, hge]
    · intro j hj
      by_cases h0 : i % nc = 0
      · simp [Area.next_guard_index, Area.guard_will_leave, h0] at hj
      · have hge : (0 : Int) ≤ (i : Int) + -1 := by omega
        simp [Area.next_guard_index, Area.guard_will_leave, h0, hge] at hj
        have hji : j ≤ i := by omega
        exact Nat.lt_of_le_of_lt hji hi
  case E =>
    constructor
    · by_cases h0 : i / nc = nc - 1
      · simp [Area.next_guard_index, Area.guard_will_leave, specNoNeighbor, h0]
      · have hge : (0 : Int) ≤ (i : Int) + (nc : Int) := by omega
        simp [Area.next_guard_index, Area.guard_will_leave, specNoNeighbor, h0, hge]
    · intro j hj
      by_cases h0 : i / nc = nc - 1
      · simp [Area.next_guard_index, Area.guard_will_leave, h0] at hj
      · have hge : (0 : Int) ≤ (i : Int) + (nc : Int) := by omega
        simp [Area.next_guard_index, Area.guard_will_leave, h0, hge] at hj
        have hq2 : i / nc < nc - 1 :=
          Nat.lt_of_le_of_ne (Nat.le_pred_of_lt hqlt) h0
        have h1 : i < (nc - 1) * nc := (Nat.div_lt_iff_lt_mul hn).mp hq2
        have hj2 : j = i + nc := by omega
        rw [hj2, ← hsq]
        linarith
  case S =>
    constructor
    · by_cases h0 : i % nc = nc - 1
      · simp [Area.next_guard_index, Area.guard_will_leave, specNoNeighbor, h0]
      · have hge : (0 : Int) ≤ (i : Int) + 1 := by omega
        simp [Area.next_guard_index, Area.guard_will_leave, specNoNeighbor, h0, hge]
    · intro j hj
      by_cases h0 : i % nc = nc - 1
      · simp [Area.next_guard_index, Area.guard_will_leave, h0] at hj
      · have hge : (0 : Int) ≤ (i : Int) + 1 := by omega
        simp [Area.next_guard_index, Area.guard_will_leave, h0, hge] at hj
        have hr2 : i % nc < nc - 1 :=
          Nat.lt_of_le_of_ne (Nat.le_pred_of_lt hmlt) h0
        have hq1 : i / nc ≤ nc - 1 := Nat.le_pred_of_lt hqlt
        have hnq : nc * (i / nc) ≤ nc * (nc - 1) := Nat.mul_le_mul_left nc hq1
        have hn1 : nc - 1 + 1 = nc := by omega
        have hsq2 : nc * (nc - 1) + nc = nc * nc := by rw [Nat.mul_comm nc (nc - 1)]; exact hsq
        have hj2 : j = i + 1 := by omega
        rw [hj2]
        linarith
  case W =>
    constructor
    · by_cases h0 : i / nc = 0
      · simp [Area.next_guard_index, Area.guard_will_leave, specNoNeighbor, h0]
      · have hni : nc ≤ i := by
          by_contra hlt
          exact h0 (Nat.div_eq_of_lt (Nat.lt_of_not_le hlt))
        have hge : (0 : Int) ≤ (i : Int) + -(nc : Int) := by omega
        simp [Area.next_guard_index, Area.guard_will_leave, specNoNeighbor, h0, hge]
    · intro j hj
      by_cases h0 : i / nc = 0
      · simp [Area.next_guard_index, Area.guard_will_leave, h0] at hj
      · have hni : nc ≤ i := by
          by_contra hlt
          exact h0 (Nat.div_eq_of_lt (Nat.lt_of_not_le hlt))
        have hge : (0 : Int) ≤ (i : Int) + -(nc : Int) := by omega
        simp [Area.next_guard_index, Area.guard_will_leave, h0, hge] at hj
        have hji : j ≤ i := by omega
        exact Nat.lt_of_le_of_lt hji hi

/-! Totality of the simulation on well-formed square states. -/

theorem wf_next_state_some {a : Area} (wf : a.Wf) :
    ∃ act a', a.next_state = some (act, a') := by
  obtain ⟨hlen, hidx, hsq, hpos⟩ := wf
  cases hi : a.next_guard_index with
  | none =>
    refine ⟨.Leave, a.run_action .Leave, ?_⟩
    unfold Area.next_state
    rw [next_guard_action_of_index_none hi]
  | some j =>
    have hj : j < a.nrows * a.ncols := by
      have hidx2 : a.guard.index < a.nrows * a.nrows := by
        rw [← hsq] at hidx
        exact hidx
      have hb := (next_guard_index_square rfl hsq.symm hpos hidx2).2 j hi
      rw [hsq] at hb ⊢
      exact hb
    have hjl : j < a.map.length := by rw [hlen]; exact hj
    have hg : a.map.get? j = some (a.map.get ⟨j, hjl⟩) := List.get?_eq_get hjl
    have hact :
        a.next_guard_action =
          match a.map.get ⟨j, hjl⟩ with
          | .Clear => some (.Advance j)
          | .Obstructed => some .Rotate := by
      rw [next_guard_action_of_index_some hi, hg]
      cases a.map.get ⟨j, hjl⟩ <;> rfl
    cases hcell : a.map.get ⟨j, hjl⟩ with
    | Clear =>
      rw [hcell] at hact
      exact ⟨.Advance j, a.run_action (.Advance j),
        by unfold Area.next_state; rw [hact]⟩
    | Obstructed =>
      rw [hcell] at hact
      exact ⟨.Rotate, a.run_action .Rotate,
        by unfold Area.next_state; rw [hact]⟩

theorem wf_step {a a' : Area} {act : Action} (wf : a.Wf)
    (h : a.next_state = some (act, a')) (hl : act.is_leave = false) : a'.Wf := by
  obtain ⟨hlen, hidx, hsq, hpos⟩ := wf
  have hfr := step_frame h
  refine ⟨by rw [hfr.1, hfr.2.1, hfr.2.2]; exact hlen, ?_,
    by rw [hfr.2.1, hfr.2.2]; exact hsq, by rw [hfr.2.1]; exact hpos⟩
  rw [hfr.2.1, hfr.2.2, ← hlen, ← hfr.1]
  exact step_index_lt h hl (by rw [hlen]; exact hidx)

theorem wf_trial_ne_none : ∀ (f : Nat) (a : Area), a.Wf →
    trialNotALoop f a ≠ none := by
  intro f
  induction f with
  | zero => intro a _; simp [trialNotALoop]
  | succ n ih =>
    intro a wf
    obtain ⟨act, a', hs⟩ := wf_next_state_some wf
    rw [trialNotALoop_succ_of_step n hs]
    by_cases hl : act.is_leave
    · rw [if_pos hl]; simp
    · rw [if_neg hl]
      refine ih a' (wf_step wf hs ?_)
      revert hl
      cases act.is_leave <;> simp

theorem obstruct_wf {a : Area} (wf : a.Wf) (p : Nat) : (obstruct a p).Wf := by
  obtain ⟨hlen, hidx, hsq, hpos⟩ := wf
  exact ⟨by simp [obstruct, hlen], hidx, hsq, hpos⟩

theorem runTrials_isSome {a : Area} (wf : a.Wf) : ∀ (ps : List Nat),
    (∀ p ∈ ps, p < a.map.length) → (runTrials a ps).isSome := by
  intro ps
  induction ps with
  | nil => intro _; rw [runTrials_nil]; rfl
  | cons q ps ih =>
    intro hb
    rw [runTrials_cons, if_pos (hb q (List.mem_cons_self q ps))]
    have h1 := wf_trial_ne_none FUEL (obstruct a q) (obstruct_wf wf q)
    cases ht : trialNotALoop FUEL (obstruct a q) with
    | none => exact absurd ht h1
    | some b =>
      have ht2 : trialIsLoop FUEL (obstruct a q) = some (!b) := by
        unfold trialIsLoop
        rw [ht]
        rfl
      rw [ht2]
      have h2 := ih (fun p hp => hb p (List.mem_cons_of_mem q hp))
      cases hrt : runTrials a ps with
      | none => rw [hrt] at h2; exact absurd h2 (by simp)
      | some bs => rfl

/-! The step budget of a trial. -/

theorem trialStepCount_succ (n : Nat) (a : Area) :
    trialStepCount (n + 1) a =
      match a.next_state with
      | none => 1
      | some (act, a') =>
        if act.is_leave then 1 else 1 + trialStepCount n a' := rfl

theorem trialStepCount_le : ∀ (f : Nat) (a : Area), trialStepCount f a ≤ f := by
  intro f
  induction f with
  | zero => intro a; simp [trialStepCount]
  | succ n ih =>
    intro a
    rw [trialStepCount_succ]
    cases hs : a.next_state with
    | none => show 1 ≤ n + 1; omega
    | some p =>
      obtain ⟨act, a'⟩ := p
      show (if act.is_leave then 1 else 1 + trialStepCount n a') ≤ n + 1
      by_cases hl : act.is_leave
      · rw [if_pos hl]; omega
      · rw [if_neg hl]
        have := ih a'
        omega

/-! Fuel monotonicity of the patrol. -/

theorem runPatrol_mono : ∀ (f m : Nat) (a : Area) (seen ps : List Nat),
    runPatrol f a seen = some ps → f ≤ m → runPatrol m a seen = some ps := by
  intro f
  induction f with
  | zero => intro m a seen ps h _; exact absurd h (by simp [runPatrol])
  | succ n ih =>
    intro m a seen ps h hm
    obtain ⟨m', rfl⟩ : ∃ m', m = m' + 1 := ⟨m - 1, by omega⟩
    cases hs : a.next_state with
    | none =>
      rw [runPatrol_succ_of_none n seen hs] at h
      exact Option.noConfusion h
    | some p =>
      obtain ⟨act, a'⟩ := p
      rw [runPatrol_succ_of_step n seen hs] at h
      rw [runPatrol_succ_of_step m' seen hs]
      by_cases hl : act.is_leave
      · rw [if_pos hl] at h
        rw [if_pos hl]
        exact h
      · rw [if_neg hl] at h
        rw [if_neg hl]
        exact ih m' a' _ ps h (by omega)

/-! Unfolding lemmas for the two entry points. -/

theorem count_distinct_of_parse {s : String} {a : Area}
    (hp : parseArea s = some a) (f : Nat) :
    count_distinct_patrol_positions f s = (runPatrol f a []).map List.length := by
  unfold count_distinct_patrol_positions
  rw [hp]

theorem count_distinct_of_run {s : String} {a : Area} {f : Nat} {ps : List Nat}
    (hp : parseArea s = some a) (hr : runPatrol f a [] = some ps) :
    count_distinct_patrol_positions f s = some ps.length := by
  rw [count_distinct_of_parse hp f, hr]
  rfl

theorem count_loops_of_parse {s : String} {a : Area}
    (hp : parseArea s = some a) (f : Nat) :
    count_possible_loops f s =
      match runPatrol f a [] with
      | none => none
      | some positions => countLoopTrials a positions := by
  unfold count_possible_loops
  rw [hp]

theorem count_loops_of_run {s : String} {a : Area} {f : Nat} {ps : List Nat}
    (hp : parseArea s = some a) (hr : runPatrol f a [] = some ps) :
    count_possible_loops f s = countLoopTrials a ps := by
  rw [count_loops_of_parse hp f, hr]

theorem count_distinct_mono {f m : Nat} {s : String} {c : Nat}
    (h : count_distinct_patrol_positions f s = some c) (hm : f ≤ m) :
    count_distinct_patrol_positions m s = some c := by
  cases hp : parseArea s with
  | none =>
    unfold count_distinct_patrol_positions at h
    rw [hp] at h
    exact Option.noConfusion h
  | some a =>
    rw [count_distinct_of_parse hp f] at h
    cases hrr : runPatrol f a [] with
    | none => rw [hrr] at h; exact Option.noConfusion h
    | some ps =>
      rw [hrr] at h
      rw [count_distinct_of_parse hp m, runPatrol_mono f m a [] ps hrr hm]
      exact h

theorem count_loops_mono {f m : Nat} {s : String} {c : Nat}
    (h : count_possible_loops f s = some c) (hm : f ≤ m) :
    count_possible_loops m s = some c := by
  cases hp : parseArea s with
  | none =>
    unfold count_possible_loops at h
    rw [hp] at h
    exact Option.noConfusion h
  | some a =>
    rw [count_loops_of_parse hp f] at h
    cases hrr : runPatrol f a [] with
    | none => rw [hrr] at h; exact Option.noConfusion h
    | some ps =>
      rw [hrr] at h
      rw [count_loops_of_run hp (runPatrol_mono f m a [] ps hrr hm)]
      exact h

/-! Evaluation of the sample board.  The six looping trials are settled
through the cycle lemma (the guard state recurs within at most 42 steps),
so no proof ever unfolds the full 6000-step budget. -/

theorem runTrials_eq_of_pointwise (a : Area) (f : Nat → Bool) :
    ∀ (ps : List Nat),
      (∀ p ∈ ps, p < a.map.length ∧
        trialIsLoop FUEL (obstruct a p) = some (f p)) →
      runTrials a ps = some (ps.map f) := by
  intro ps
  induction ps with
  | nil => intro _; rfl
  | cons q ps ih =>
    intro hok
    obtain ⟨h1, h2⟩ := hok q (List.mem_cons_self q ps)
    rw [runTrials_cons, if_pos h1, h2,
      ih (fun p hp => hok p (List.mem_cons_of_mem q hp))]
    rfl

set_option maxRecDepth 40000 in
set_option maxHeartbeats 2000000 in
theorem trial_loop_36 : trialIsLoop FUEL (obstruct exampleArea 36) = some true :=
  trialIsLoop_eq_true_of_cycle FUEL _ 0 22 (by decide) (by decide) (by decide)

set_option maxRecDepth 40000 in
set_option maxHeartbeats 2000000 in
theorem trial_loop_67 : trialIsLoop FUEL (obstruct exampleArea 67) = some true :=
  trialIsLoop_eq_true_of_cycle FUEL _ 19 16 (by decide) (by decide)
    ((by decide :
        (obstruct exampleArea 67).traj 35 = some (areaAt 67 66 .W)).trans
      (by decide :
        (obstruct exampleArea 67).traj 19 = some (areaAt 67 66 .W)).symm)

set_option maxRecDepth 40000 in
set_option maxHeartbeats 2000000 in
theorem trial_loop_38 : trialIsLoop FUEL (obstruct exampleArea 38) = some true :=
  trialIsLoop_eq_true_of_cycle FUEL _ 0 42 (by decide) (by decide) (by decide)

set_option maxRecDepth 40000 in
set_option maxHeartbeats 2000000 in
theorem trial_loop_18 : trialIsLoop FUEL (obstruct exampleArea 18) = some true :=
  trialIsLoop_eq_true_of_cycle FUEL _ 24 20 (by decide) (by decide)
    ((by decide :
        (obstruct exampleArea 18).traj 44 = some (areaAt 18 26 .N)).trans
      (by decide :
        (obstruct exampleArea 18).traj 24 = some (areaAt 18 26 .N)).symm)

set_option maxRecDepth 40000 in
set_option maxHeartbeats 2000000 in
theorem trial_loop_77 : trialIsLoop FUEL (obstruct exampleArea 77) = some true :=
  trialIsLoop_eq_true_of_cycle FUEL _ 35 16 (by decide) (by decide)
    ((by decide :
        (obstruct exampleArea 77).traj 51 = some (areaAt 77 67 .S)).trans
      (by decide :
        (obstruct exampleArea 77).traj 35 = some (areaAt 77 67 .S)).symm)

set_option maxRecDepth 40000 in
set_option maxHeartbeats 2000000 in
theorem trial_loop_79 : trialIsLoop FUEL (obstruct exampleArea 79) = some true :=
  trialIsLoop_eq_true_of_cycle FUEL _ 37 18 (by decide) (by decide)
    ((by decide :
        (obstruct exampleArea 79).traj 55 = some (areaAt 79 68 .W)).trans
      (by decide :
        (obstruct exampleArea 79).traj 37 = some (areaAt 79 68 .W)).symm)

set_option maxRecDepth 100000 in
theorem runTrials_example :
    runTrials exampleArea exampleVisited =
      some (exampleVisited.map (fun p => decide (p ∈ loopPositions))) := by
  apply runTrials_eq_of_pointwise
  intro p hp
  unfold exampleVisited at hp
  fin_cases hp
  all_goals first
    | exact ⟨by decide, by rw [trial_loop_36]; decide⟩
    | exact ⟨by decide, by rw [trial_loop_67]; decide⟩
    | exact ⟨by decide, by rw [trial_loop_38]; decide⟩
    | exact ⟨by decide, by rw [trial_loop_18]; decide⟩
    | exact ⟨by decide, by rw [trial_loop_77]; decide⟩
    | exact ⟨by decide, by rw [trial_loop_79]; decide⟩
    | exact ⟨by decide, by decide⟩

theorem countLoopTrials_example :
    countLoopTrials exampleArea exampleVisited = some 6 := by
  unfold countLoopTrials
  rw [runTrials_example]
  decide

/-! Order independence of the fan-out: the per-candidate count only
depends on the multiset of candidates. -/

theorem length_filter_cons_id (b : Bool) (rs : List Bool) :
    ((b :: rs).filter (fun x => x)).length =
      b.toNat + (rs.filter (fun x => x)).length := by
  cases b <;> simp [List.filter_cons, Nat.add_comm]

theorem runTrials_cons_g (a : Area) (p : Nat) (ps : List Nat) :
    runTrials a (p :: ps) =
      match trialG a p, runTrials a ps with
      | some b, some bs => some (b :: bs)
      | _, _ => none := by
  rw [runTrials_cons]
  unfold trialG
  by_cases hp : p < a.map.length
  · rw [if_pos hp, if_pos hp]
  · rw [if_neg hp, if_neg hp]

theorem countLoopTrials_eq_countP (a : Area) : ∀ ps : List Nat,
    countLoopTrials a ps =
      if ∀ p ∈ ps, (trialG a p).isSome
      then some (ps.countP (fun p => trialG a p == some true))
      else none := by
  intro ps
  induction ps with
  | nil => simp [countLoopTrials, runTrials_nil]
  | cons q ps ih =>
    unfold countLoopTrials
    rw [runTrials_cons_g]
    cases hg : trialG a q with
    | none =>
      have hnall : ¬ ∀ p ∈ q :: ps, (trialG a p).isSome := by
        intro hall
        have := hall q (List.mem_cons_self q ps)
        rw [hg] at this
        exact absurd this (by simp)
      rw [if_neg hnall]
      cases runTrials a ps <;> rfl
    | some b =>
      cases hrest : runTrials a ps with
      | none =>
        have hnps : ¬ ∀ p ∈ ps, (trialG a p).isSome := by
          intro hall
          rw [if_pos hall] at ih
          unfold countLoopTrials at ih
          rw [hrest] at ih
          exact Option.noConfusion ih
        have hnall : ¬ ∀ p ∈ q :: ps, (trialG a p).isSome := fun hall =>
          hnps (fun p hp => hall p (List.mem_cons_of_mem q hp))
        rw [if_neg hnall]
        rfl
      | some rs =>
        have hps : ∀ p ∈ ps, (trialG a p).isSome := by
          by_contra hnps
          rw [if_neg hnps] at ih
          unfold countLoopTrials at ih
          rw [hrest] at ih
          exact Option.noConfusion ih
        have hall : ∀ p ∈ q :: ps, (trialG a p).isSome := by
          intro p hp
          rcases List.mem_cons.mp hp with rfl | hp2
          · rw [hg]; rfl
          · exact hps p hp2
        rw [if_pos hall]
        have hcount : (rs.filter (fun x => x)).length =
            ps.countP (fun p => trialG a p == some true) := by
          rw [if_pos hps] at ih
          unfold countLoopTrials at ih
          rw [hrest] at ih
          injection ih with ih
        show some (((b :: rs).filter (fun x => x)).length) = _
        rw [length_filter_cons_id, hcount, List.countP_cons]
        have hpred : (trialG a q == some true) = b := by
          rw [hg]
          cases b <;> rfl
        rw [hpred]
        cases b <;> simp [Bool.toNat, Nat.add_comm]

theorem countLoopTrials_perm (a : Area) {ps qs : List Nat}
    (h : List.Perm ps qs) :
    countLoopTrials a ps = countLoopTrials a qs := by
  rw [countLoopTrials_eq_countP, countLoopTrials_eq_countP]
  have hmem : (∀ p ∈ ps, (trialG a p).isSome) ↔
      (∀ p ∈ qs, (trialG a p).isSome) := by
    constructor <;> intro hall p hp
    · exact hall p (h.mem_iff.mpr hp)
    · exact hall p (h.mem_iff.mp hp)
  by_cases hc : ∀ p ∈ ps, (trialG a p).isSome
  · rw [if_pos hc, if_pos (hmem.mp hc), h.countP_eq]
  · rw [if_neg hc, if_neg (fun hq => hc (hmem.mpr hq))]

/-! The result of each trial is recorded in the fan-out output. -/

theorem runTrials_mem_of_trial (a : Area) : ∀ (ps : List Nat) (rs : List Bool),
    runTrials a ps = some rs → ∀ p ∈ ps, ∀ b,
    trialIsLoop FUEL (obstruct a p) = some b → b ∈ rs := by
  intro ps
  induction ps with
  | nil => intro rs _ p hp; exact absurd hp (List.not_mem_nil p)
  | cons q ps ih =>
    intro rs hrs p hp b hb
    rw [runTrials_cons] at hrs
    by_cases hq : q < a.map.length
    · rw [if_pos hq] at hrs
      cases ht : trialIsLoop FUEL (obstruct a q) with
      | none => rw [ht] at hrs; exact Option.noConfusion hrs
      | some b0 =>
        rw [ht] at hrs
        cases hrest : runTrials a ps with
        | none => rw [hrest] at hrs; exact Option.noConfusion hrs
        | some bs =>
          rw [hrest] at hrs
          injection hrs with hrs
          subst hrs
          rcases List.mem_cons.mp hp with rfl | hp2
          · rw [ht] at hb
            injection hb with hb
            subst hb
            exact List.mem_cons_self _ _
          · exact List.mem_cons_of_mem _ (ih bs hrest p hp2 b hb)
    · rw [if_neg hq] at hrs
      exact Option.noConfusion hrs

/-! The ten claims. -/

/-- C1: for every input whose unobstructed patrol terminates and whose
trials neither index out of range nor panic, count_possible_loops returns
exactly the number of candidate positions p in the visited set such that
the run with the cell at p obstructed never produces the Leave action
within the FUEL step budget; and a candidate whose run does produce Leave
within the budget is classified as not a loop, so the escaping case is
exact. -/
theorem count_possible_loops_spec (input : String) (n : Nat) (a : Area)
    (ps : List Nat) (hp : parseArea input = some a)
    (hr : runPatrol n a [] = some ps)
    (hok : ∀ p ∈ ps, p < a.map.length ∧
      trialNotALoop FUEL (obstruct a p) ≠ none) :
    count_possible_loops n input =
      some ((ps.filter
        (fun p => decide (noLeaveWithin FUEL (obstruct a p)))).length) ∧
    ∀ p ∈ ps, (∃ k < FUEL, (obstruct a p).actionAt k = some .Leave) →
      trialIsLoop FUEL (obstruct a p) = some false := by
  constructor
  · rw [count_loops_of_run hp hr]
    exact countLoopTrials_eq_filter a ps hok
  · intro p _ hleave
    exact trialIsLoop_eq_false_of_leave FUEL (obstruct a p) hleave

/-- C1 witness at the 2 by 2 all-clear board. -/
theorem count_possible_loops_spec_witness :
    count_possible_loops 10 smallInput =
      some (([1, 0].filter
        (fun p => decide (noLeaveWithin FUEL (obstruct smallArea p)))).length) :=
  (count_possible_loops_spec smallInput 10 smallArea [1, 0]
    (by decide) (by decide) (by decide)).1

/-- C2 counterexample: the claim fails on a non-square grid.  In
areaNonSquare (3 rows, 2 columns) the guard sits at index 4, in the last
column, facing east, so the specification boundary rule says the step has
no valid destination; but guard_will_leave tests the column with ncols as
divisor instead of the column-major stride nrows, so next_guard_index
returns some 7, an index beyond the 6 cells of the grid, instead of
none. -/
theorem next_guard_index_counterexample :
    specNoNeighbor areaNonSquare.nrows areaNonSquare.ncols
        areaNonSquare.guard.index areaNonSquare.guard.direction ∧
    areaNonSquare.next_guard_index = some 7 ∧
    areaNonSquare.nrows * areaNonSquare.ncols = 6 := by
  decide

/-- C2 (amended to square grids): for every square grid and every
in-range guard index, next_guard_index returns none exactly when the
one-step move would under/overflow or cross a row/column boundary, and
any returned index is again in range, so adding 1 to an index in the last
row never silently produces a coordinate in an adjacent column. -/
theorem next_guard_index_boundary (a : Area) (n : Nat) (hr : a.nrows = n)
    (hc : a.ncols = n) (hn : 0 < n) (hi : a.guard.index < n * n) :
    (a.next_guard_index = none ↔
      specNoNeighbor n n a.guard.index a.guard.direction) ∧
    (∀ j, a.next_guard_index = some j → j < n * n) :=
  next_guard_index_square hr hc hn hi

/-- C2 witness at the 2 by 2 all-clear board. -/
theorem next_guard_index_boundary_witness :
    smallArea.next_guard_index = none ↔
      specNoNeighbor 2 2 smallArea.guard.index smallArea.guard.direction :=
  (next_guard_index_boundary smallArea 2 rfl rfl (by decide) (by decide)).1

/-- C3: next_guard_action returns Leave exactly when the next-cell
computation has no valid destination under the boundary rule, Rotate when
the destination cell is Obstructed, and Advance carrying the destination
index when it is Clear. -/
theorem next_guard_action_spec (a : Area) :
    (a.next_guard_action = some .Leave ↔ a.next_guard_index = none) ∧
    (∀ i, a.next_guard_index = some i →
      (a.map.get? i = some .Obstructed → a.next_guard_action = some .Rotate) ∧
      (a.map.get? i = some .Clear →
        a.next_guard_action = some (.Advance i))) := by
  constructor
  · constructor
    · intro h
      cases hi : a.next_guard_index with
      | none => rfl
      | some i =>
        rw [next_guard_action_of_index_some hi] at h
        cases hg : a.map.get? i with
        | none => rw [hg] at h; exact Option.noConfusion h
        | some c =>
          cases c
          · rw [hg] at h
            simp at h
          · rw [hg] at h
            simp at h
    · exact next_guard_action_of_index_none
  · intro i hi
    constructor
    · intro hg
      rw [next_guard_action_of_index_some hi, hg]
    · intro hg
      rw [next_guard_action_of_index_some hi, hg]

/-- C3 witness: on the 2 by 2 all-clear board the first action advances
to index 0. -/
theorem next_guard_action_spec_witness :
    smallArea.next_guard_action = some (.Advance 0) :=
  ((next_guard_action_spec smallArea).2 0 (by decide)).2 (by decide)

/-- C4: the facing is parsed correctly, but the guard position is not the
cell where the marker appears.  In cornerInput the up-arrow marker sits
at row 0, column 0 — column-major index 0 — yet from_str places the guard
at column-major index 2 (row 0, column 1): the raw-to-row-major
adjustment raw_index - raw_index / nrows + 1 does not subtract the number
of preceding newline characters, and is off by one whenever the marker
row and column sum to less than nrows. -/
theorem parse_misplaces_guard :
    parseArea cornerInput =
      some { nrows := 2, ncols := 2,
             map := [Position.Clear, Position.Clear,
                     Position.Clear, Position.Clear],
             guard := { index := 2, direction := .N } } := by
  decide

set_option maxRecDepth 100000 in
/-- C5: on the standard 10 by 10 AoC Day 6 sample board with the guard
facing up at row 6 column 4, count_distinct_patrol_positions returns
exactly 41 and count_possible_loops returns exactly 6, for every patrol
fuel that lets the unobstructed patrol finish. -/
theorem example_board_counts (m : Nat) (hm : 200 ≤ m) :
    count_distinct_patrol_positions m EXAMPLE = some 41 ∧
    count_possible_loops m EXAMPLE = some 6 := by
  have hparse : parseArea EXAMPLE = some exampleArea := by decide
  have hrun : runPatrol 200 exampleArea [] = some exampleVisited := by decide
  constructor
  · refine count_distinct_mono ?_ hm
    rw [count_distinct_of_run hparse hrun]
    rfl
  · refine count_loops_mono ?_ hm
    rw [count_loops_of_run hparse hrun]
    exact countLoopTrials_example

/-- C5 witness at fuel 200. -/
theorem example_board_counts_witness :
    count_distinct_patrol_positions 200 EXAMPLE = some 41 ∧
    count_possible_loops 200 EXAMPLE = some 6 :=
  example_board_counts 200 (by decide)

/-- C6: for every parsed board whose guard starts in range and whose
unobstructed patrol terminates, the number of distinct patrol positions
is at least 1 (the starting cell is always visited) and at most the total
cell count. -/
theorem count_distinct_bounds (input : String) (n : Nat) (a : Area)
    (c : Nat) (hp : parseArea input = some a)
    (hstart : a.guard.index < a.nrows * a.ncols)
    (hc : count_distinct_patrol_positions n input = some c) :
    1 ≤ c ∧ c ≤ a.nrows * a.ncols := by
  have hlen : a.map.length = a.nrows * a.ncols := parseArea_shape hp
  rw [count_distinct_of_parse hp n] at hc
  cases hrr : runPatrol n a [] with
  | none => rw [hrr] at hc; exact Option.noConfusion hc
  | some ps =>
    rw [hrr] at hc
    injection hc with hc
    subst hc
    have hmem := runPatrol_mem n a [] ps hrr
    have hbound := runPatrol_bound n a [] ps (by rw [hlen]; exact hstart)
      (fun x hx => absurd hx (List.not_mem_nil x)) List.nodup_nil hrr
    constructor
    · exact List.length_pos.mpr (List.ne_nil_of_mem hmem.2)
    · rw [← hlen]
      exact nodup_bound_length hbound.1 hbound.2

/-- C6 witness at the 2 by 2 all-clear board. -/
theorem count_distinct_bounds_witness :
    1 ≤ 2 ∧ 2 ≤ smallArea.nrows * smallArea.ncols :=
  count_distinct_bounds smallInput 10 smallArea 2
    (by decide) (by decide) (by decide)

/-- C7: both entry points are pure functions of their input, so repeated
runs agree, and the candidate count is invariant under any permutation of
the candidate list, so the parallel evaluation order cannot change the
reported count. -/
theorem deterministic_and_order_independent (input : String) (n : Nat)
    (a : Area) (ps qs : List Nat) (hperm : List.Perm ps qs) :
    count_distinct_patrol_positions n input =
      count_distinct_patrol_positions n input ∧
    count_possible_loops n input = count_possible_loops n input ∧
    countLoopTrials a ps = countLoopTrials a qs :=
  ⟨rfl, rfl, countLoopTrials_perm a hperm⟩

/-- C7 witness: swapping the two candidates of the 2 by 2 board leaves
the count unchanged. -/
theorem deterministic_and_order_independent_witness :
    countLoopTrials smallArea [1, 0] = countLoopTrials smallArea [0, 1] :=
  (deterministic_and_order_independent smallInput 10 smallArea [1, 0] [0, 1]
    (List.Perm.swap 0 1 [])).2.2

/-- C8: applying an action mutates only its stated field: Advance sets
only the guard index, Rotate sets only the facing to its turn-right,
Leave sets the guard index to the departed sentinel usize::MAX, and no
action ever changes a grid cell or a dimension. -/
theorem run_action_frame (a : Area) :
    (∀ i, a.run_action (.Advance i) =
      { a with guard := { a.guard with index := i } }) ∧
    (a.run_action .Rotate =
      { a with guard :=
        { a.guard with direction := a.guard.direction.turn_right } }) ∧
    (a.run_action .Leave =
      { a with guard := { a.guard with index := usizeMax } }) ∧
    (∀ act, (a.run_action act).map = a.map ∧
      (a.run_action act).nrows = a.nrows ∧
      (a.run_action act).ncols = a.ncols) := by
  refine ⟨fun i => rfl, rfl, rfl, fun act => ?_⟩
  cases act <;> exact ⟨rfl, rfl, rfl⟩

/-- C9: the step budget FUEL is the compiled-in constant 6000, every
trial performs at most FUEL next_state calls (each Rotate and each
Advance consumes one unit), and on a well-formed square board whose
unobstructed patrol terminates count_possible_loops returns a value even
when an obstruction induces a true cycle. -/
theorem loop_search_terminates :
    FUEL = 6000 ∧
    (∀ a : Area, trialStepCount FUEL a ≤ FUEL) ∧
    (∀ (input : String) (n : Nat) (a : Area) (ps : List Nat),
      parseArea input = some a → a.Wf → runPatrol n a [] = some ps →
      (count_possible_loops n input).isSome) := by
  refine ⟨rfl, fun a => trialStepCount_le FUEL a, ?_⟩
  intro input n a ps hp wf hr
  rw [count_loops_of_run hp hr]
  have hbound := runPatrol_bound n a [] ps (by rw [wf.1]; exact wf.2.1)
    (fun x hx => absurd hx (List.not_mem_nil x)) List.nodup_nil hr
  have hrt := runTrials_isSome wf ps hbound.2
  unfold countLoopTrials
  cases hx : runTrials a ps with
  | none => rw [hx] at hrt; exact absurd hrt (by simp)
  | some rs => rfl

/-- C9 witness at the 2 by 2 all-clear board. -/
theorem loop_search_terminates_witness :
    (count_possible_loops 10 smallInput).isSome :=
  loop_search_terminates.2.2 smallInput 10 smallArea [1, 0]
    (by decide) (by decide) (by decide)

/-- C10: the guard starting position is always included in the loop
search candidate set, a trial is run with the synthetic obstruction on
that cell, and whenever that trial fails to produce Leave within the
budget it contributes to the reported loop count. -/
theorem start_cell_is_candidate (input : String) (n : Nat) (a : Area)
    (ps : List Nat) (hp : parseArea input = some a)
    (hr : runPatrol n a [] = some ps) :
    a.guard.index ∈ ps ∧
    (∀ cnt, count_possible_loops n input = some cnt →
      trialIsLoop FUEL (obstruct a a.guard.index) = some true → 1 ≤ cnt) := by
  refine ⟨(runPatrol_mem n a [] ps hr).2, ?_⟩
  intro cnt hcnt htrial
  rw [count_loops_of_run hp hr] at hcnt
  unfold countLoopTrials at hcnt
  cases hx : runTrials a ps with
  | none => rw [hx] at hcnt; exact Option.noConfusion hcnt
  | some rs =>
    rw [hx] at hcnt
    injection hcnt with hcnt
    have hmem : true ∈ rs :=
      runTrials_mem_of_trial a ps rs hx a.guard.index
        (runPatrol_mem n a [] ps hr).2 true htrial
    have hfil : true ∈ rs.filter (fun x => x) :=
      List.mem_filter.mpr ⟨hmem, rfl⟩
    have hpos := List.length_pos.mpr (List.ne_nil_of_mem hfil)
    exact lt_of_lt_of_eq hpos hcnt

/-- C10 witness at the 2 by 2 all-clear board. -/
theorem start_cell_is_candidate_witness :
    smallArea.guard.index ∈ [1, 0] :=
  (start_cell_is_candidate smallInput 10 smallArea [1, 0]
    (by decide) (by decide)).1

end Day06
